import Mathlib

namespace VueQuery

/-! ## Key hasher

The query core that hashes query keys is an external dependency of this
repository; only its documented behaviour is available here.  The values a
query key may contain are serializable JSON-like values plus an explicit
undefined marker. -/

/-- Modelled from the spec: a serializable query-key value — strings, numbers,
booleans, null, an explicit undefined marker, arrays, and plain objects
represented as property lists.  The Key Hasher operating on these values is
part of the external query core, not of this source tree. -/
inductive JVal where
  | str (s : String)
  | num (n : Int)
  | bool (b : Bool)
  | null
  | undef
  | arr (elems : List JVal)
  | obj (props : List (String × JVal))

/-- Whether a value is the explicit undefined marker. -/
def JVal.isUndef : JVal → Bool
  | .undef => true
  | _ => false

/-- Object properties whose value is undefined are dropped before hashing. -/
def dropUndef (props : List (String × JVal)) : List (String × JVal) :=
  props.filter (fun p => !p.2.isUndef)

/-- Character-list comparison (lexicographic by code point), used to give
object properties a canonical order.  A computable comparison is used so that
hashes of concrete keys evaluate. -/
def charsLe : List Char → List Char → Bool
  | [], _ => true
  | _ :: _, [] => false
  | a :: as, b :: bs =>
    if a.val.toNat < b.val.toNat then true
    else if b.val.toNat < a.val.toNat then false
    else charsLe as bs

/-- Lexicographic comparison of strings by their character lists. -/
def strLe (a b : String) : Bool := charsLe a.data b.data

theorem charsLe_total (a b : List Char) : charsLe a b = true ∨ charsLe b a = true := by
  induction a generalizing b with
  | nil => exact .inl rfl
  | cons x as ih =>
    cases b with
    | nil => exact .inr rfl
    | cons y bs =>
      rcases Nat.lt_trichotomy x.val.toNat y.val.toNat with h | h | h
      · exact .inl (by simp [charsLe, h])
      · rcases ih bs with h' | h' <;> [left; right] <;>
          simp [charsLe, h, h', Nat.lt_irrefl]
      · exact .inr (by simp [charsLe, h])

theorem charsLe_trans {a b c : List Char} (h₁ : charsLe a b = true)
    (h₂ : charsLe b c = true) : charsLe a c = true := by
  induction a generalizing b c with
  | nil => rfl
  | cons x as ih =>
    cases b with
    | nil => simp [charsLe] at h₁
    | cons y bs =>
      cases c with
      | nil => simp [charsLe] at h₂
      | cons z cs =>
        simp only [charsLe] at h₁ h₂ ⊢
        split_ifs at h₁ h₂ ⊢ <;> first | rfl | omega | exact ih h₁ h₂

theorem charsLe_antisymm {a b : List Char} (h₁ : charsLe a b = true)
    (h₂ : charsLe b a = true) : a = b := by
  induction a generalizing b with
  | nil =>
    cases b with
    | nil => rfl
    | cons y bs => simp [charsLe] at h₂
  | cons x as ih =>
    cases b with
    | nil => simp [charsLe] at h₁
    | cons y bs =>
      simp only [charsLe] at h₁ h₂
      split_ifs at h₁ h₂ <;> try omega
      have hv : x.val.toNat = y.val.toNat := by omega
      have hx : x = y := Char.ext (UInt32.ext hv)
      rw [hx, ih h₁ h₂]

theorem strLe_total (a b : String) : strLe a b = true ∨ strLe b a = true :=
  charsLe_total a.data b.data

theorem strLe_trans {a b c : String} (h₁ : strLe a b = true)
    (h₂ : strLe b c = true) : strLe a c = true :=
  charsLe_trans h₁ h₂

theorem strLe_antisymm {a b : String} (h₁ : strLe a b = true)
    (h₂ : strLe b a = true) : a = b := by
  cases a with
  | mk da =>
    cases b with
    | mk db => exact congrArg String.mk (charsLe_antisymm h₁ h₂)

/-- Order on object properties by property name, used to canonicalize
object-property order. -/
def propR (p q : String × JVal) : Prop := strLe p.1 q.1 = true

instance : DecidableRel propR := fun p q => inferInstanceAs (Decidable (strLe p.1 q.1 = true))

instance : IsTotal (String × JVal) propR := ⟨fun p q => strLe_total p.1 q.1⟩

instance : IsTrans (String × JVal) propR := ⟨fun _ _ _ h₁ h₂ => strLe_trans h₁ h₂⟩

mutual

/-- Modelled from the spec: the Key Hasher canonicalizes a key — object
properties with undefined values are omitted, remaining properties are sorted
by name, array order and bare undefined array elements are preserved.  The
canonical form stands in for the canonical serialization string the external
hasher produces: two keys hash identically exactly when their canonical forms
are equal. -/
def canon : JVal → JVal
  | .str s => .str s
  | .num n => .num n
  | .bool b => .bool b
  | .null => .null
  | .undef => .undef
  | .arr xs => .arr (canonList xs)
  | .obj ps => .obj (List.insertionSort propR (canonProps ps))

/-- Canonicalize each element of an array; order and undefined elements are
kept. -/
def canonList : List JVal → List JVal
  | [] => []
  | x :: xs => canon x :: canonList xs

/-- Canonicalize a property list, dropping properties whose value is
undefined. -/
def canonProps : List (String × JVal) → List (String × JVal)
  | [] => []
  | p :: ps =>
    if p.2.isUndef then canonProps ps else (p.1, canon p.2) :: canonProps ps

end

/-- The hash of a query key, modelled as its canonical form. -/
def hashQueryKey (v : JVal) : JVal := canon v

/-- The property names of a property list, in order. -/
def propKeys (ps : List (String × JVal)) : List String := ps.map Prod.fst

/-- Whether a list of property names contains no duplicates. -/
def noDupKeys : List String → Bool
  | [] => true
  | s :: rest => !(rest.contains s) && noDupKeys rest

mutual

/-- Well-formedness of a query-key value: every object has pairwise distinct
property names, as plain objects do. -/
def wfKey : JVal → Bool
  | .str _ => true
  | .num _ => true
  | .bool _ => true
  | .null => true
  | .undef => true
  | .arr xs => wfList xs
  | .obj ps => noDupKeys (propKeys ps) && wfProps ps

/-- Well-formedness of every element of an array. -/
def wfList : List JVal → Bool
  | [] => true
  | x :: xs => wfKey x && wfList xs

/-- Well-formedness of every property value of an object. -/
def wfProps : List (String × JVal) → Bool
  | [] => true
  | p :: ps => wfKey p.2 && wfProps ps

end

mutual

/-- Structural size of a query-key value, used for induction. -/
def jsize : JVal → Nat
  | .str _ => 1
  | .num _ => 1
  | .bool _ => 1
  | .null => 1
  | .undef => 1
  | .arr xs => jsizeList xs + 1
  | .obj ps => jsizeProps ps + 1

/-- Structural size of an array's elements. -/
def jsizeList : List JVal → Nat
  | [] => 0
  | x :: xs => jsize x + jsizeList xs + 1

/-- Structural size of an object's property values. -/
def jsizeProps : List (String × JVal) → Nat
  | [] => 0
  | p :: ps => jsize p.2 + jsizeProps ps + 1

end

mutual

/-- Cache-equivalence of query keys, from the spec: primitive values are
equivalent only to themselves; arrays are compared elementwise in order (a
bare undefined element is a value like any other); objects are compared by
their property sets irrespective of property order, after properties with
undefined values are discarded. -/
inductive KeyEquiv : JVal → JVal → Prop where
  | str (s : String) : KeyEquiv (.str s) (.str s)
  | num (n : Int) : KeyEquiv (.num n) (.num n)
  | bool (b : Bool) : KeyEquiv (.bool b) (.bool b)
  | null : KeyEquiv .null .null
  | undef : KeyEquiv .undef .undef
  | arr {xs ys : List JVal} : KeyEquivList xs ys → KeyEquiv (.arr xs) (.arr ys)
  | obj {ps qs : List (String × JVal)} :
      KeyEquivProps (dropUndef ps) (dropUndef qs) → KeyEquiv (.obj ps) (.obj qs)

/-- Elementwise equivalence of arrays, in order. -/
inductive KeyEquivList : List JVal → List JVal → Prop where
  | nil : KeyEquivList [] []
  | cons {x y : JVal} {xs ys : List JVal} :
      KeyEquiv x y → KeyEquivList xs ys → KeyEquivList (x :: xs) (y :: ys)

/-- Equivalence of property lists up to reordering: each property on the left
matches a property with the same name and an equivalent value somewhere on the
right, and the remainders are again equivalent. -/
inductive KeyEquivProps :
    List (String × JVal) → List (String × JVal) → Prop where
  | nil : KeyEquivProps [] []
  | cons {k : String} {v w : JVal} {ps qs₁ qs₂ : List (String × JVal)} :
      KeyEquiv v w → KeyEquivProps ps (qs₁ ++ qs₂) →
      KeyEquivProps ((k, v) :: ps) (qs₁ ++ (k, w) :: qs₂)

end

/-- The canonical image of a single object property. -/
def cprop (p : String × JVal) : String × JVal := (p.1, canon p.2)

theorem canonProps_eq_map (ps : List (String × JVal)) :
    canonProps ps = (dropUndef ps).map cprop := by
  induction ps with
  | nil => rfl
  | cons p ps ih =>
    cases h : p.2.isUndef <;>
      simp [canonProps, dropUndef, List.filter_cons, h, cprop, ih]

theorem jsize_le_of_mem {x : JVal} {xs : List JVal} (h : x ∈ xs) :
    jsize x ≤ jsizeList xs := by
  induction xs with
  | nil => cases h
  | cons y ys ih =>
    rcases List.mem_cons.mp h with rfl | h'
    · simp only [jsizeList]; omega
    · have := ih h'; simp only [jsizeList]; omega

theorem jsize_snd_le_of_mem {p : String × JVal} {ps : List (String × JVal)}
    (h : p ∈ ps) : jsize p.2 ≤ jsizeProps ps := by
  induction ps with
  | nil => cases h
  | cons q qs ih =>
    rcases List.mem_cons.mp h with rfl | h'
    · simp only [jsizeProps]; omega
    · have := ih h'; simp only [jsizeProps]; omega

theorem wfList_mem {xs : List JVal} (hwf : wfList xs = true) {x : JVal}
    (h : x ∈ xs) : wfKey x = true := by
  induction xs with
  | nil => cases h
  | cons y ys ih =>
    simp only [wfList, Bool.and_eq_true] at hwf
    rcases List.mem_cons.mp h with rfl | h'
    · exact hwf.1
    · exact ih hwf.2 h'

theorem wfProps_mem {ps : List (String × JVal)} (hwf : wfProps ps = true)
    {p : String × JVal} (h : p ∈ ps) : wfKey p.2 = true := by
  induction ps with
  | nil => cases h
  | cons q qs ih =>
    simp only [wfProps, Bool.and_eq_true] at hwf
    rcases List.mem_cons.mp h with rfl | h'
    · exact hwf.1
    · exact ih hwf.2 h'

theorem noDupKeys_iff {l : List String} : noDupKeys l = true ↔ l.Nodup := by
  induction l with
  | nil => simp [noDupKeys]
  | cons s rest ih =>
    simp [noDupKeys, ih, List.nodup_cons]

theorem propKeys_map_cprop (l : List (String × JVal)) :
    propKeys (l.map cprop) = propKeys l := by
  simp only [propKeys, List.map_map]
  exact List.map_congr_left fun p _ => rfl

/-- Sorted property lists with duplicate-free property names are equal
whenever they are permutations of each other. -/
theorem insertionSort_eq_of_perm {P Q : List (String × JVal)}
    (h : P.Perm Q) (hnd : (propKeys P).Nodup) :
    List.insertionSort propR P = List.insertionSort propR Q := by
  have hndQ' : (propKeys Q).Nodup := ((h.map Prod.fst).nodup_iff).mp hnd
  have hndP : ((List.insertionSort propR P).map Prod.fst).Nodup :=
    (((List.perm_insertionSort propR P).map Prod.fst).nodup_iff).mpr hnd
  have hndQ : ((List.insertionSort propR Q).map Prod.fst).Nodup :=
    (((List.perm_insertionSort propR Q).map Prod.fst).nodup_iff).mpr hndQ'
  have hsP : (List.insertionSort propR P).Pairwise propR :=
    List.sorted_insertionSort propR P
  have hsQ : (List.insertionSort propR Q).Pairwise propR :=
    List.sorted_insertionSort propR Q
  have hneP : (List.insertionSort propR P).Pairwise (fun p q => p.1 ≠ q.1) :=
    List.pairwise_map.mp hndP
  have hneQ : (List.insertionSort propR Q).Pairwise (fun p q => p.1 ≠ q.1) :=
    List.pairwise_map.mp hndQ
  have hanti : IsAntisymm (String × JVal)
      (fun p q => propR p q ∧ p.1 ≠ q.1) :=
    ⟨fun _ _ h₁ h₂ => absurd (strLe_antisymm h₁.1 h₂.1) h₁.2⟩
  have hperm : (List.insertionSort propR P).Perm (List.insertionSort propR Q) :=
    (List.perm_insertionSort propR P).trans
      (h.trans (List.perm_insertionSort propR Q).symm)
  exact @List.eq_of_perm_of_sorted _ (fun p q => propR p q ∧ p.1 ≠ q.1) hanti
    _ _ hperm (hsP.and hneP) (hsQ.and hneQ)

theorem keyEquiv_arr_iff {xs ys : List JVal} :
    KeyEquiv (.arr xs) (.arr ys) ↔ KeyEquivList xs ys :=
  ⟨fun h => by cases h with | arr h => exact h, KeyEquiv.arr⟩

theorem keyEquiv_obj_iff {ps qs : List (String × JVal)} :
    KeyEquiv (.obj ps) (.obj qs) ↔
      KeyEquivProps (dropUndef ps) (dropUndef qs) :=
  ⟨fun h => by cases h with | obj h => exact h, KeyEquiv.obj⟩

theorem canonList_eq_iff_aux :
    ∀ xs ys : List JVal,
      (∀ x y, x ∈ xs → y ∈ ys → (canon x = canon y ↔ KeyEquiv x y)) →
      (canonList xs = canonList ys ↔ KeyEquivList xs ys) := by
  intro xs
  induction xs with
  | nil =>
    intro ys _
    cases ys with
    | nil => exact iff_of_true rfl .nil
    | cons y ys =>
      refine ⟨fun h => ?_, fun h => ?_⟩
      · simp [canonList] at h
      · cases h
  | cons x xs ih =>
    intro ys hih
    cases ys with
    | nil =>
      refine ⟨fun h => ?_, fun h => ?_⟩
      · simp [canonList] at h
      · cases h
    | cons y ys =>
      simp only [canonList, List.cons.injEq]
      constructor
      · rintro ⟨h1, h2⟩
        exact .cons ((hih x y (by simp) (by simp)).mp h1)
          ((ih ys fun a b ha hb =>
            hih a b (List.mem_cons_of_mem _ ha) (List.mem_cons_of_mem _ hb)).mp h2)
      · intro h
        cases h with
        | cons hxy hrest =>
          exact ⟨(hih x y (by simp) (by simp)).mpr hxy,
            (ih ys fun a b ha hb =>
              hih a b (List.mem_cons_of_mem _ ha) (List.mem_cons_of_mem _ hb)).mpr hrest⟩

theorem propsPerm_iff_aux :
    ∀ ps qs : List (String × JVal),
      (∀ v w, v ∈ ps.map Prod.snd → w ∈ qs.map Prod.snd →
        (canon v = canon w ↔ KeyEquiv v w)) →
      ((ps.map cprop).Perm (qs.map cprop) ↔ KeyEquivProps ps qs) := by
  intro ps
  induction ps with
  | nil =>
    intro qs _
    constructor
    · intro h
      have hq : qs.map cprop = [] := (List.nil_perm.mp h)
      have : qs = [] := List.map_eq_nil_iff.mp hq
      subst this
      exact .nil
    · intro h
      cases h
      exact .refl _
  | cons pv ps ih =>
    intro qs hih
    obtain ⟨k, v⟩ := pv
    constructor
    · intro h
      have hmem : cprop (k, v) ∈ qs.map cprop :=
        h.subset (List.mem_cons_self _ _)
      obtain ⟨⟨qk, qv⟩, hq, hcq⟩ := List.mem_map.mp hmem
      have hkk : qk = k := congrArg Prod.fst hcq
      have hcv : canon qv = canon v := congrArg Prod.snd hcq
      subst hkk
      obtain ⟨s, t, rfl⟩ := List.append_of_mem hq
      have hmid : ((s ++ (qk, qv) :: t).map cprop).Perm
          (cprop (qk, qv) :: (s.map cprop ++ t.map cprop)) := by
        simp only [List.map_append, List.map_cons]
        exact List.perm_middle
      have h2 : (((qk, v) :: ps).map cprop).Perm
          (cprop (qk, qv) :: (s.map cprop ++ t.map cprop)) := h.trans hmid
      have hch : cprop (qk, qv) = cprop (qk, v) := by
        simp [cprop, hcv]
      rw [hch] at h2
      have h3 : (ps.map cprop).Perm ((s ++ t).map cprop) := by
        have := h2.cons_inv
        simpa [List.map_append] using this
      have hsub : ∀ w, w ∈ (s ++ t).map Prod.snd →
          w ∈ ((s ++ (qk, qv) :: t).map Prod.snd) := by
        intro w hw
        simp only [List.map_append, List.mem_append, List.map_cons,
          List.mem_cons] at hw ⊢
        tauto
      have hrest := (ih (s ++ t) fun a b haa hbb =>
        hih a b (List.mem_cons_of_mem _ haa) (hsub b hbb)).mp h3
      have hvm : v ∈ (((qk, v) :: ps).map Prod.snd) := by simp
      have hwm : qv ∈ ((s ++ (qk, qv) :: t).map Prod.snd) := by simp
      have hvw : KeyEquiv v qv := (hih v qv hvm hwm).mp hcv.symm
      exact KeyEquivProps.cons hvw hrest
    · intro h
      cases h with
      | cons hvw hrest =>
        rename_i w qs₁ qs₂
        have hvm : v ∈ (((k, v) :: ps).map Prod.snd) := by simp
        have hwm : w ∈ ((qs₁ ++ (k, w) :: qs₂).map Prod.snd) := by simp
        have hcvw : canon v = canon w := (hih v w hvm hwm).mpr hvw
        have hsub : ∀ b, b ∈ (qs₁ ++ qs₂).map Prod.snd →
            b ∈ ((qs₁ ++ (k, w) :: qs₂).map Prod.snd) := by
          intro b hb
          simp only [List.map_append, List.mem_append, List.map_cons,
            List.mem_cons] at hb ⊢
          tauto
        have hps := (ih (qs₁ ++ qs₂) fun a b haa hbb =>
          hih a b (List.mem_cons_of_mem _ haa) (hsub b hbb)).mpr hrest
        have step2 : (((k, v) :: ps).map cprop).Perm
            ((k, canon v) :: (qs₁ ++ qs₂).map cprop) := by
          simp only [List.map_cons]
          exact hps.cons _
        have step3 : ((k, canon v) :: (qs₁ ++ qs₂).map cprop).Perm
            ((qs₁ ++ (k, w) :: qs₂).map cprop) := by
          rw [hcvw]
          simp only [List.map_append, List.map_cons]
          exact List.perm_middle.symm
        exact step2.trans step3

theorem canon_eq_iff_keyEquiv :
    ∀ n a b, jsize a + jsize b ≤ n → wfKey a = true → wfKey b = true →
      (canon a = canon b ↔ KeyEquiv a b) := by
  intro n
  induction n using Nat.strong_induction_on with
  | _ n IH =>
    intro a b hn ha hb
    cases a <;> cases b
    case str.str s t =>
      simp only [canon, JVal.str.injEq]
      exact ⟨fun h => h ▸ .str s, fun h => by cases h; rfl⟩
    case num.num m₁ m₂ =>
      simp only [canon, JVal.num.injEq]
      exact ⟨fun h => h ▸ .num m₁, fun h => by cases h; rfl⟩
    case bool.bool b₁ b₂ =>
      simp only [canon, JVal.bool.injEq]
      exact ⟨fun h => h ▸ .bool b₁, fun h => by cases h; rfl⟩
    case null.null => exact iff_of_true rfl .null
    case undef.undef => exact iff_of_true rfl .undef
    case arr.arr xs ys =>
      simp only [canon, JVal.arr.injEq]
      rw [keyEquiv_arr_iff]
      simp only [wfKey] at ha hb
      simp only [jsize] at hn
      apply canonList_eq_iff_aux
      intro x y hx hy
      have hx1 : jsize x ≤ jsizeList xs := jsize_le_of_mem hx
      have hy1 : jsize y ≤ jsizeList ys := jsize_le_of_mem hy
      exact IH (jsize x + jsize y) (by omega) x y le_rfl
        (wfList_mem ha hx) (wfList_mem hb hy)
    case obj.obj ps qs =>
      simp only [canon, JVal.obj.injEq]
      rw [keyEquiv_obj_iff, canonProps_eq_map, canonProps_eq_map]
      simp only [wfKey, Bool.and_eq_true] at ha hb
      simp only [jsize] at hn
      have hih : ∀ v w, v ∈ (dropUndef ps).map Prod.snd →
          w ∈ (dropUndef qs).map Prod.snd →
          (canon v = canon w ↔ KeyEquiv v w) := by
        intro v w hv hw
        obtain ⟨p, hp, rfl⟩ := List.mem_map.mp hv
        obtain ⟨q, hq, rfl⟩ := List.mem_map.mp hw
        simp only [dropUndef] at hp hq
        have hp' : p ∈ ps := List.mem_of_mem_filter hp
        have hq' : q ∈ qs := List.mem_of_mem_filter hq
        have h1 := jsize_snd_le_of_mem hp'
        have h2 := jsize_snd_le_of_mem hq'
        exact IH (jsize p.2 + jsize q.2) (by omega) p.2 q.2 le_rfl
          (wfProps_mem ha.2 hp') (wfProps_mem hb.2 hq')
      constructor
      · intro h
        have ha' := List.perm_insertionSort propR ((dropUndef ps).map cprop)
        have hb' := List.perm_insertionSort propR ((dropUndef qs).map cprop)
        rw [← h] at hb'
        exact (propsPerm_iff_aux _ _ hih).mp (ha'.symm.trans hb')
      · intro h
        apply insertionSort_eq_of_perm ((propsPerm_iff_aux _ _ hih).mpr h)
        rw [propKeys_map_cprop]
        have hsub : List.Sublist (propKeys (dropUndef ps)) (propKeys ps) :=
          (List.filter_sublist ps).map Prod.fst
        exact (noDupKeys_iff.mp ha.1).sublist hsub
    all_goals exact ⟨fun h => absurd h (by simp [canon]), fun h => nomatch h⟩

/-- C3: for every pair of well-formed query keys, the hashes agree exactly
when the keys are cache-equivalent — identical hashes for keys differing only
in object-property order, different hashes for keys differing in array element
order, object properties with undefined values omitted before hashing, and a
bare undefined array element kept as a distinguishing value.  Both behaviours
follow from the equivalence relation KeyEquiv, which compares objects as
unordered property sets after dropping undefined-valued properties and
compares arrays strictly in order with undefined as an ordinary element. -/
theorem hashQueryKey_eq_iff_cache_equivalent (a b : JVal)
    (ha : wfKey a = true) (hb : wfKey b = true) :
    hashQueryKey a = hashQueryKey b ↔ KeyEquiv a b :=
  canon_eq_iff_keyEquiv (jsize a + jsize b) a b le_rfl ha hb

/-- The key from the docs scenario with properties in one order. -/
def todosKeyA : JVal :=
  .arr [.str "todos", .obj [("status", .str "done"), ("page", .num 1)]]

/-- The same key with object properties reordered and an extra
undefined-valued property. -/
def todosKeyB : JVal :=
  .arr [.str "todos",
    .obj [("page", .num 1), ("status", .str "done"), ("other", .undef)]]

/-- Witness for C3 at the docs scenario: the two reorderings of the todos key
are well-formed and hash identically. -/
theorem hashQueryKey_eq_iff_cache_equivalent_witness :
    wfKey todosKeyA = true ∧ wfKey todosKeyB = true ∧
      KeyEquiv todosKeyA todosKeyB :=
  ⟨rfl, rfl,
    (hashQueryKey_eq_iff_cache_equivalent todosKeyA todosKeyB rfl rfl).mp rfl⟩

/-! ## Infinite queries

The infinite-query engine also lives in the external query core; the guides in
this repository document its behaviour.  Pages and page params are modelled as
the two sequences an infinite Query Entry holds, and fetching is modelled by a
pure fetch function from a page param to a page. -/

/-- Modelled from the spec: the paginated data held by an infinite Query
Entry — the fetched pages and, at corresponding indices, the page params used
to fetch each page.  The first page is fetched without a param, so stored
params are optional. -/
structure InfiniteData (Page Param : Type) where
  pages : List Page
  pageParams : List (Option Param)

/-- Modelled from the spec: the caller-supplied configuration of an infinite
query — the fetch function receiving an optional page param, and the
param-derivation functions whose undefined result (none) is the sentinel for
no more pages. -/
structure InfiniteConfig (Page Param : Type) where
  queryFn : Option Param → Page
  getNextPageParam : Page → List Page → Option Param
  getPreviousPageParam : Page → List Page → Option Param

/-- The next page param, derived by applying getNextPageParam to the last
page and all pages; none when there is no page yet or no further page. -/
def nextPageParam {Page Param : Type} (cfg : InfiniteConfig Page Param)
    (d : InfiniteData Page Param) : Option Param :=
  match d.pages.getLast? with
  | none => none
  | some last => cfg.getNextPageParam last d.pages

/-- The previous page param, derived from the first page. -/
def previousPageParam {Page Param : Type} (cfg : InfiniteConfig Page Param)
    (d : InfiniteData Page Param) : Option Param :=
  match d.pages.head? with
  | none => none
  | some first => cfg.getPreviousPageParam first d.pages

/-- Modelled from the spec: hasNextPage is true exactly when getNextPageParam
returns a value other than undefined. -/
def hasNextPage {Page Param : Type} (cfg : InfiniteConfig Page Param)
    (d : InfiniteData Page Param) : Bool :=
  (nextPageParam cfg d).isSome

/-- Modelled from the spec: fetchNextPage computes the next page param via
getNextPageParam unless an explicit override param is supplied; when the
derived param is undefined and no override is given the call is a no-op;
otherwise the fetched page and the param are appended to pages and pageParams
together. -/
def fetchNextPage {Page Param : Type} (cfg : InfiniteConfig Page Param)
    (override : Option Param) (d : InfiniteData Page Param) :
    InfiniteData Page Param :=
  match override.orElse (fun _ => nextPageParam cfg d) with
  | none => d
  | some p =>
      { pages := d.pages ++ [cfg.queryFn (some p)],
        pageParams := d.pageParams ++ [some p] }

/-- Modelled from the spec: fetchPreviousPage is symmetric to fetchNextPage,
prepending the fetched page and its param. -/
def fetchPreviousPage {Page Param : Type} (cfg : InfiniteConfig Page Param)
    (override : Option Param) (d : InfiniteData Page Param) :
    InfiniteData Page Param :=
  match override.orElse (fun _ => previousPageParam cfg d) with
  | none => d
  | some p =>
      { pages := cfg.queryFn (some p) :: d.pages,
        pageParams := some p :: d.pageParams }

/-- A start or finish of the fetch of the page at one index, recorded in
execution order during a full refetch. -/
inductive FetchEvent where
  | start (i : Nat)
  | finish (i : Nat)
deriving DecidableEq

/-- Modelled from the spec: a full refetch walks the existing pages in
original order; each page is fetched with its own stored param, and the next
fetch is issued only after the previous one finished.  Returns the re-fetched
pages together with the trace of fetch events. -/
def refetchSeq {Page Param : Type} (cfg : InfiniteConfig Page Param) :
    List (Option Param) → Nat → List Page × List FetchEvent
  | [], _ => ([], [])
  | p :: ps, i =>
      let page := cfg.queryFn p
      let rest := refetchSeq cfg ps (i + 1)
      (page :: rest.1, .start i :: .finish i :: rest.2)

/-- Modelled from the spec: refetching the whole entry replaces every page by
re-fetching it from its stored param; the params themselves are kept. -/
def refetchAll {Page Param : Type} (cfg : InfiniteConfig Page Param)
    (d : InfiniteData Page Param) : InfiniteData Page Param :=
  { pages := (refetchSeq cfg d.pageParams 0).1, pageParams := d.pageParams }

/-- Checks that no fetch starts while another is in flight, given the number
of fetches currently in flight. -/
def noOverlapFrom : Nat → List FetchEvent → Bool
  | _, [] => true
  | n, .start _ :: es => n == 0 && noOverlapFrom (n + 1) es
  | n, .finish _ :: es => noOverlapFrom (n - 1) es

/-- The indices whose fetches start, in trace order. -/
def startIndices : List FetchEvent → List Nat
  | [] => []
  | .start i :: es => i :: startIndices es
  | .finish _ :: es => startIndices es

/-- Modelled from the spec: the operations on an infinite Query Entry the
parity invariant ranges over — page appends in both directions, a full
refetch, and a manual cache write through an updater. -/
inductive InfiniteOp (Page Param : Type) where
  | fetchNext (override : Option Param)
  | fetchPrevious (override : Option Param)
  | refetch
  | setData (updater : InfiniteData Page Param → InfiniteData Page Param)

/-- Apply one operation to the entry data. -/
def applyOp {Page Param : Type} (cfg : InfiniteConfig Page Param) :
    InfiniteOp Page Param → InfiniteData Page Param → InfiniteData Page Param
  | .fetchNext o, d => fetchNextPage cfg o d
  | .fetchPrevious o, d => fetchPreviousPage cfg o d
  | .refetch, d => refetchAll cfg d
  | .setData f, d => f d

/-- Run a sequence of operations left to right. -/
def runOps {Page Param : Type} (cfg : InfiniteConfig Page Param)
    (ops : List (InfiniteOp Page Param)) (d : InfiniteData Page Param) :
    InfiniteData Page Param :=
  ops.foldl (fun s op => applyOp cfg op s) d

/-- The invariant: pages and pageParams always have equal length. -/
def pageParity {Page Param : Type} (d : InfiniteData Page Param) : Prop :=
  d.pages.length = d.pageParams.length

/-- Modelled from the spec: a manual cache write must preserve the data
shape; the fetch operations preserve it by construction. -/
def opPreservesShape {Page Param : Type} : InfiniteOp Page Param → Prop
  | .setData f => ∀ d, pageParity d → pageParity (f d)
  | _ => True

theorem refetchSeq_fst {Page Param : Type} (cfg : InfiniteConfig Page Param) :
    ∀ (ps : List (Option Param)) (i : Nat),
      (refetchSeq cfg ps i).1 = ps.map cfg.queryFn := by
  intro ps
  induction ps with
  | nil => intro i; rfl
  | cons p ps ih => intro i; simp [refetchSeq, ih]

theorem refetchSeq_starts {Page Param : Type} (cfg : InfiniteConfig Page Param) :
    ∀ (ps : List (Option Param)) (i : Nat),
      startIndices (refetchSeq cfg ps i).2 = List.range' i ps.length := by
  intro ps
  induction ps with
  | nil => intro i; rfl
  | cons p ps ih => intro i; simp [refetchSeq, startIndices, ih, List.range']

theorem refetchSeq_noOverlap {Page Param : Type}
    (cfg : InfiniteConfig Page Param) :
    ∀ (ps : List (Option Param)) (i : Nat),
      noOverlapFrom 0 (refetchSeq cfg ps i).2 = true := by
  intro ps
  induction ps with
  | nil => intro i; rfl
  | cons p ps ih => intro i; simp [refetchSeq, noOverlapFrom, ih]

theorem applyOp_parity {Page Param : Type} (cfg : InfiniteConfig Page Param)
    (op : InfiniteOp Page Param) (d : InfiniteData Page Param)
    (hop : opPreservesShape op) (hd : pageParity d) :
    pageParity (applyOp cfg op d) := by
  cases op with
  | fetchNext o =>
    show pageParity (fetchNextPage cfg o d)
    unfold fetchNextPage
    split
    · exact hd
    · simp only [pageParity, List.length_append, List.length_cons,
        List.length_nil] at hd ⊢
      omega
  | fetchPrevious o =>
    show pageParity (fetchPreviousPage cfg o d)
    unfold fetchPreviousPage
    split
    · exact hd
    · simp only [pageParity, List.length_cons] at hd ⊢
      omega
  | refetch =>
    show pageParity (refetchAll cfg d)
    simp [pageParity, refetchAll, refetchSeq_fst]
  | setData f => exact hop d hd

/-- C1: for every infinite Query Entry and every sequence of fetchNextPage,
fetchPreviousPage, full-refetch and shape-preserving manual-write operations,
pages and pageParams have equal length after every prefix of the sequence;
each page append extends both lists together. -/
theorem runOps_parity_after_each {Page Param : Type}
    (cfg : InfiniteConfig Page Param) :
    ∀ (ops : List (InfiniteOp Page Param)) (d : InfiniteData Page Param),
      pageParity d → (∀ op ∈ ops, opPreservesShape op) →
      ∀ k, pageParity (runOps cfg (ops.take k) d) := by
  intro ops
  induction ops with
  | nil =>
    intro d hd _ k
    simpa [runOps] using hd
  | cons op rest ih =>
    intro d hd hops k
    cases k with
    | zero => simpa [runOps] using hd
    | succ k =>
      simp only [List.take_succ_cons, runOps, List.foldl_cons]
      exact ih (applyOp cfg op d)
        (applyOp_parity cfg op d (hops op (by simp)) hd)
        (fun o ho => hops o (List.mem_cons_of_mem _ ho)) k

/-- A sample configuration over Nat pages and params. -/
def natCfg : InfiniteConfig Nat Nat where
  queryFn := fun p => p.getD 0 + 10
  getNextPageParam := fun last _ => some (last + 1)
  getPreviousPageParam := fun _ _ => none

/-- A sample operation sequence exercising every kind of operation; the
manual write removes the first page, as in the docs. -/
def sampleOps : List (InfiniteOp Nat Nat) :=
  [.fetchNext none, .fetchNext (some 5), .refetch,
   .setData (fun d => ⟨d.pages.drop 1, d.pageParams.drop 1⟩),
   .fetchPrevious (some 2)]

/-- Witness for C1: the parity invariant holds after three operations of the
sample sequence starting from the empty entry. -/
theorem runOps_parity_after_each_witness :
    pageParity (⟨[], []⟩ : InfiniteData Nat Nat) ∧
      pageParity (runOps natCfg (sampleOps.take 3) ⟨[], []⟩) :=
  ⟨rfl,
    runOps_parity_after_each natCfg sampleOps ⟨[], []⟩ rfl
      (by
        intro op hop
        simp only [sampleOps, List.mem_cons, List.not_mem_nil, or_false] at hop
        rcases hop with rfl | rfl | rfl | rfl | rfl
        · trivial
        · trivial
        · trivial
        · intro d hd
          simp only [pageParity] at hd ⊢
          simp [hd]
        · trivial)
      3⟩

/-- C2: a full refetch of an infinite Query Entry re-fetches every existing
page with that page's own stored param, the fetches start in original page
order, and no fetch starts while another is in flight. -/
theorem refetchAll_sequential_in_order {Page Param : Type}
    (cfg : InfiniteConfig Page Param) (d : InfiniteData Page Param)
    (hp : pageParity d) :
    (refetchAll cfg d).pages = d.pageParams.map cfg.queryFn ∧
    startIndices (refetchSeq cfg d.pageParams 0).2 =
      List.range d.pages.length ∧
    noOverlapFrom 0 (refetchSeq cfg d.pageParams 0).2 = true := by
  refine ⟨refetchSeq_fst cfg d.pageParams 0, ?_, refetchSeq_noOverlap cfg d.pageParams 0⟩
  rw [refetchSeq_starts cfg d.pageParams 0, List.range_eq_range', hp]

/-- Witness for C2 on a three-page entry with stored params. -/
theorem refetchAll_sequential_in_order_witness :
    pageParity (⟨[10, 11, 12], [none, some 1, some 2]⟩ :
      InfiniteData Nat Nat) ∧
    (refetchAll natCfg ⟨[10, 11, 12], [none, some 1, some 2]⟩).pages =
      [10, 11, 12] ∧
    startIndices
      (refetchSeq natCfg ([none, some 1, some 2] : List (Option Nat)) 0).2 =
      [0, 1, 2] ∧
    noOverlapFrom 0
      (refetchSeq natCfg ([none, some 1, some 2] : List (Option Nat)) 0).2 =
      true := by
  have h := refetchAll_sequential_in_order natCfg
    ⟨[10, 11, 12], [none, some 1, some 2]⟩ rfl
  exact ⟨rfl, by simpa using h.1, by simpa using h.2.1, h.2.2⟩

/-- C5: when getNextPageParam returns undefined, hasNextPage is false and
fetchNextPage without an override param is a no-op — pages and pageParams are
unchanged. -/
theorem fetchNextPage_noop {Page Param : Type} (cfg : InfiniteConfig Page Param)
    (d : InfiniteData Page Param) (h : nextPageParam cfg d = none) :
    hasNextPage cfg d = false ∧ fetchNextPage cfg none d = d := by
  constructor
  · simp [hasNextPage, h]
  · simp [fetchNextPage, h]

/-- A configuration whose getNextPageParam always returns none. -/
def endedCfg : InfiniteConfig Nat Nat where
  queryFn := fun p => p.getD 0 + 10
  getNextPageParam := fun _ _ => none
  getPreviousPageParam := fun _ _ => none

/-- Witness for C5 on a one-page entry of a query with no further pages. -/
theorem fetchNextPage_noop_witness :
    nextPageParam endedCfg (⟨[5], [none]⟩ : InfiniteData Nat Nat) = none ∧
      hasNextPage endedCfg (⟨[5], [none]⟩ : InfiniteData Nat Nat) = false ∧
      fetchNextPage endedCfg none (⟨[5], [none]⟩ : InfiniteData Nat Nat) =
        ⟨[5], [none]⟩ :=
  ⟨rfl,
    (fetchNextPage_noop endedCfg ⟨[5], [none]⟩ rfl).1,
    (fetchNextPage_noop endedCfg ⟨[5], [none]⟩ rfl).2⟩

/-- Modelled from the spec: walk the (page, stored param) pairs in index
order; a page matching the refetchPage predicate is re-fetched from its
stored param, a page not matching keeps its last known value in place.
Returns the resulting pages and the indices actually fetched, one fetch per
matching page. -/
def refetchSel {Page Param : Type} (cfg : InfiniteConfig Page Param)
    (pred : Page → Nat → List Page → Bool) (allPages : List Page) :
    List (Page × Option Param) → Nat → List Page × List Nat
  | [], _ => ([], [])
  | (page, param) :: rest, i =>
      let r := refetchSel cfg pred allPages rest (i + 1)
      if pred page i allPages then (cfg.queryFn param :: r.1, i :: r.2)
      else (page :: r.1, r.2)

/-- Modelled from the spec: a refetch restricted by a refetchPage predicate,
applied to an infinite Query Entry. -/
def refetchPages {Page Param : Type} (cfg : InfiniteConfig Page Param)
    (pred : Page → Nat → List Page → Bool) (d : InfiniteData Page Param) :
    InfiniteData Page Param × List Nat :=
  let r := refetchSel cfg pred d.pages (d.pages.zip d.pageParams) 0
  ({ pages := r.1, pageParams := d.pageParams }, r.2)

theorem refetchSel_length {Page Param : Type} (cfg : InfiniteConfig Page Param)
    (pred : Page → Nat → List Page → Bool) (allPages : List Page) :
    ∀ (l : List (Page × Option Param)) (i : Nat),
      (refetchSel cfg pred allPages l i).1.length = l.length := by
  intro l
  induction l with
  | nil => intro i; rfl
  | cons pp rest ih =>
    intro i
    obtain ⟨page, param⟩ := pp
    by_cases h : pred page i allPages = true <;>
      simp [refetchSel, h, ih]

theorem refetchSel_getElem {Page Param : Type} (cfg : InfiniteConfig Page Param)
    (pred : Page → Nat → List Page → Bool) (allPages : List Page) :
    ∀ (l : List (Page × Option Param)) (i : Nat) (j : Nat)
      (pp : Page × Option Param), l[j]? = some pp →
      (refetchSel cfg pred allPages l i).1[j]? =
        some (if pred pp.1 (i + j) allPages then cfg.queryFn pp.2 else pp.1) := by
  intro l
  induction l with
  | nil => intro i j pp h; simp at h
  | cons hd rest ih =>
    intro i j pp h
    obtain ⟨page, param⟩ := hd
    cases j with
    | zero =>
      simp only [List.getElem?_cons_zero, Option.some.injEq] at h
      subst h
      by_cases hp : pred page i allPages = true <;>
        simp [refetchSel, hp, Nat.add_zero]
    | succ j =>
      simp only [List.getElem?_cons_succ] at h
      have := ih (i + 1) j pp h
      rw [show i + 1 + j = i + (j + 1) by omega] at this
      by_cases hp : pred page i allPages = true <;>
        simp [refetchSel, hp, List.getElem?_cons_succ, this]

theorem refetchSel_fetched {Page Param : Type} (cfg : InfiniteConfig Page Param)
    (pred : Page → Nat → List Page → Bool) (allPages : List Page) :
    ∀ (l : List (Page × Option Param)) (i : Nat),
      (refetchSel cfg pred allPages l i).2 =
        (List.range l.length).filterMap (fun j =>
          l[j]?.bind (fun pp =>
            if pred pp.1 (i + j) allPages then some (i + j) else none)) := by
  intro l
  induction l with
  | nil => intro i; rfl
  | cons hd rest ih =>
    intro i
    obtain ⟨page, param⟩ := hd
    have harith : (fun j => rest[j]?.bind fun pp =>
        if pred pp.1 (i + 1 + j) allPages then some (i + 1 + j) else none) =
        (fun j => rest[j]?.bind fun pp =>
          if pred pp.1 (i + (j + 1)) allPages then some (i + (j + 1)) else none) := by
      funext j
      rw [show i + 1 + j = i + (j + 1) by omega]
    by_cases hp : pred page i allPages = true <;>
      simp [refetchSel, hp, ih, List.range_succ_eq_map, List.filterMap_cons,
        List.filterMap_map, Function.comp_def, harith]

/-- C6: a refetch restricted by a refetchPage predicate re-fetches exactly
the pages whose index satisfies the predicate — the fetched-index list is the
filter of all indices by the predicate, one fetch per matching page — while
every non-matching page keeps its last known value at its original index, the
page count is unchanged (no gap, no reordering) and the stored params are
untouched. -/
theorem refetchPages_spec {Page Param : Type} (cfg : InfiniteConfig Page Param)
    (pred : Page → Nat → List Page → Bool) (d : InfiniteData Page Param)
    (hp : pageParity d) :
    ((refetchPages cfg pred d).1.pages.length = d.pages.length) ∧
    ((refetchPages cfg pred d).1.pageParams = d.pageParams) ∧
    (∀ j pp, (d.pages.zip d.pageParams)[j]? = some pp →
      pred pp.1 j d.pages = false →
      (refetchPages cfg pred d).1.pages[j]? = some pp.1) ∧
    (∀ j pp, (d.pages.zip d.pageParams)[j]? = some pp →
      pred pp.1 j d.pages = true →
      (refetchPages cfg pred d).1.pages[j]? = some (cfg.queryFn pp.2)) ∧
    ((refetchPages cfg pred d).2 =
      (List.range d.pages.length).filterMap (fun j =>
        (d.pages.zip d.pageParams)[j]?.bind (fun pp =>
          if pred pp.1 j d.pages then some j else none))) := by
  have hzlen : (d.pages.zip d.pageParams).length = d.pages.length := by
    have hp' : d.pages.length = d.pageParams.length := hp
    simp [List.length_zip]
    omega
  refine ⟨?_, rfl, ?_, ?_, ?_⟩
  · simp [refetchPages, refetchSel_length, hzlen]
  · intro j pp hj hpred
    have := refetchSel_getElem cfg pred d.pages (d.pages.zip d.pageParams)
      0 j pp hj
    simpa [refetchPages, Nat.zero_add, hpred] using this
  · intro j pp hj hpred
    have := refetchSel_getElem cfg pred d.pages (d.pages.zip d.pageParams)
      0 j pp hj
    simpa [refetchPages, Nat.zero_add, hpred] using this
  · have := refetchSel_fetched cfg pred d.pages (d.pages.zip d.pageParams) 0
    simpa [refetchPages, Nat.zero_add, hzlen] using this

/-- Witness for C6, the docs scenario: on a three-page entry, refetching with
the predicate selecting index 0 makes exactly one fetch (for index 0) and
leaves pages 1 and 2 with their prior values. -/
theorem refetchPages_spec_witness :
    pageParity (⟨[10, 11, 12], [none, some 1, some 2]⟩ :
      InfiniteData Nat Nat) ∧
    (refetchPages natCfg (fun _ i _ => i == 0)
        ⟨[10, 11, 12], [none, some 1, some 2]⟩).2 = [0] ∧
    (refetchPages natCfg (fun _ i _ => i == 0)
        ⟨[10, 11, 12], [none, some 1, some 2]⟩).1.pages = [10, 11, 12] ∧
    (refetchPages natCfg (fun _ i _ => i == 0)
        ⟨[10, 11, 12], [none, some 1, some 2]⟩).1.pages[1]? = some 11 := by
  have h := refetchPages_spec natCfg (fun _ i _ => i == 0)
    ⟨[10, 11, 12], [none, some 1, some 2]⟩ rfl
  refine ⟨rfl, ?_, rfl, ?_⟩
  · simpa using h.2.2.2.2
  · exact h.2.2.1 1 (11, some 1) rfl rfl

/-! ## Fetch deduplication, observer result derivation, cache lifecycle

These mechanisms also live in the external query core; they are modelled
from the spec's invariants and the observer contract. -/

/-- Modelled from the spec: the deduplication state of a Query Entry — the id
of the promise of the in-flight fetch if any, a counter supplying fresh
promise ids, and a count of invocations of the underlying fetch function. -/
structure FetchState where
  inFlight : Option Nat
  nextId : Nat
  fetchCount : Nat

/-- Modelled from the spec: a fetch trigger on an entry with a fetch already
in flight registers against the existing promise and starts nothing; on an
idle entry it invokes the fetch function once and records the new in-flight
promise.  Returns the promise the trigger observes. -/
def triggerFetch (s : FetchState) : Nat × FetchState :=
  match s.inFlight with
  | some p => (p, s)
  | none =>
      (s.nextId,
        { inFlight := some s.nextId, nextId := s.nextId + 1,
          fetchCount := s.fetchCount + 1 })

/-- Resolution of the in-flight fetch. -/
def resolveFetch (s : FetchState) : FetchState := { s with inFlight := none }

/-- C4: at most one fetch is in flight per Query Entry — a second fetch
trigger issued before the first fetch resolves leaves the invocation count at
exactly one more than before the first trigger, returns the same promise the
first trigger created, and does not change the state at all. -/
theorem triggerFetch_dedup (s : FetchState) (hidle : s.inFlight = none) :
    ((triggerFetch (triggerFetch s).2).2.fetchCount = s.fetchCount + 1) ∧
    ((triggerFetch (triggerFetch s).2).1 = (triggerFetch s).1) ∧
    ((triggerFetch (triggerFetch s).2).2 = (triggerFetch s).2) := by
  simp [triggerFetch, hidle]

/-- Witness for C4 starting from a fresh idle entry. -/
theorem triggerFetch_dedup_witness :
    (FetchState.mk none 0 0).inFlight = none ∧
    (triggerFetch (triggerFetch ⟨none, 0, 0⟩).2).2.fetchCount = 1 ∧
    (triggerFetch (triggerFetch ⟨none, 0, 0⟩).2).1 =
      (triggerFetch ⟨none, 0, 0⟩).1 :=
  ⟨rfl, (triggerFetch_dedup ⟨none, 0, 0⟩ rfl).1,
    (triggerFetch_dedup ⟨none, 0, 0⟩ rfl).2.1⟩

/-- Modelled from the spec: the observer state that keepPreviousData ranges
over — the current key, the data the observer exposes, the isPreviousData
flag, whether keepPreviousData is enabled, and whether a fetch for the
current key is outstanding. -/
structure ObserverView (K D : Type) where
  key : K
  data : Option D
  isPreviousData : Bool
  keepPreviousData : Bool
  fetching : Bool

/-- Modelled from the spec: a key change on an observer with keepPreviousData
enabled keeps exposing the prior successful data, flags it as previous data,
and starts the fetch for the new key; with the option disabled the exposed
data is dropped while the new fetch is outstanding. -/
def changeKey {K D : Type} (o : ObserverView K D) (k : K) : ObserverView K D :=
  if o.keepPreviousData then
    { o with key := k, isPreviousData := true, fetching := true }
  else
    { o with key := k, data := none, isPreviousData := false, fetching := true }

/-- Modelled from the spec: when the outstanding fetch settles, the observer
swaps to the new key's result and clears the isPreviousData flag. -/
def settleFetch {K D : Type} (o : ObserverView K D) (result : D) :
    ObserverView K D :=
  { o with data := some result, isPreviousData := false, fetching := false }

/-- C7: with keepPreviousData enabled, a key change while the new fetch is
outstanding leaves the observer exposing the previous key's data with
isPreviousData true, and only when the new fetch settles does the data flip
to the new result with isPreviousData false. -/
theorem keepPreviousData_lag {K D : Type} (o : ObserverView K D) (k : K)
    (result : D) (hkpd : o.keepPreviousData = true) :
    ((changeKey o k).data = o.data ∧
     (changeKey o k).isPreviousData = true ∧
     (changeKey o k).fetching = true) ∧
    ((settleFetch (changeKey o k) result).data = some result ∧
     (settleFetch (changeKey o k) result).isPreviousData = false ∧
     (settleFetch (changeKey o k) result).fetching = false) := by
  simp [changeKey, settleFetch, hkpd]

/-- Witness for C7: key changes from 1 to 2 while page 1's data is shown. -/
theorem keepPreviousData_lag_witness :
    (ObserverView.mk 1 (some "page1") false true false).keepPreviousData
        = true ∧
    (changeKey (ObserverView.mk 1 (some "page1") false true false) 2).data
        = some "page1" ∧
    (settleFetch
        (changeKey (ObserverView.mk 1 (some "page1") false true false) 2)
        "page2").data = some "page2" :=
  ⟨rfl,
    (keepPreviousData_lag (ObserverView.mk 1 (some "page1") false true false)
      2 "page2" rfl).1.1,
    (keepPreviousData_lag (ObserverView.mk 1 (some "page1") false true false)
      2 "page2" rfl).2.1⟩

/-- The status of a Query Entry. -/
inductive QueryStatus where
  | idle
  | loading
  | success
  | error
deriving DecidableEq

/-- Modelled from the spec: the per-key cached state a fresh observer reads —
entry status and, for infinite queries, the accumulated paginated data. -/
structure EntryState (Page Param : Type) where
  status : QueryStatus
  data : InfiniteData Page Param

/-- The state a freshly created entry starts in: idle with no pages. -/
def freshEntry {Page Param : Type} : EntryState Page Param :=
  { status := .idle, data := { pages := [], pageParams := [] } }

/-- Modelled from the spec: the Query Cache as an association list from
hashed key to Query Entry state. -/
def QueryCache (Page Param : Type) : Type :=
  List (String × EntryState Page Param)

/-- Look up an entry by hashed key. -/
def cacheLookup {Page Param : Type} (c : QueryCache Page Param)
    (k : String) : Option (EntryState Page Param) :=
  (c.find? (fun e => e.1 == k)).map (fun e => e.2)

/-- Modelled from the spec: removal deletes the entry from the cache. -/
def cacheRemove {Page Param : Type} (c : QueryCache Page Param)
    (k : String) : QueryCache Page Param :=
  c.filter (fun e => e.1 != k)

/-- Modelled from the spec: mounting a fresh observer resolves the key in the
cache, creating a fresh idle entry when the key is absent; the observer reads
the entry it resolved. -/
def mountObserver {Page Param : Type} (c : QueryCache Page Param)
    (k : String) : EntryState Page Param × QueryCache Page Param :=
  match cacheLookup c k with
  | some e => (e, c)
  | none => (freshEntry, (k, freshEntry) :: c)

theorem cacheLookup_remove {Page Param : Type} (c : QueryCache Page Param)
    (k : String) : cacheLookup (cacheRemove c k) k = none := by
  induction c with
  | nil => rfl
  | cons e rest ih =>
    by_cases h : e.1 = k
    · simp [cacheRemove, cacheLookup, List.filter_cons, h]
    · simp only [cacheRemove, cacheLookup, List.filter_cons] at ih ⊢
      simp [h, List.find?_cons, ih]

/-- C8: after an entry is removed from the cache, a fresh observer for the
same key starts on a freshly created entry — status idle and zero pages; the
previously accumulated pages are discarded, not restored. -/
theorem mountObserver_after_remove {Page Param : Type}
    (c : QueryCache Page Param) (k : String) :
    ((mountObserver (cacheRemove c k) k).1.status = QueryStatus.idle) ∧
    ((mountObserver (cacheRemove c k) k).1.data.pages = []) ∧
    ((mountObserver (cacheRemove c k) k).1.data.pageParams = []) := by
  simp [mountObserver, cacheLookup_remove, freshEntry]

/-! ## The useBaseQuery adapter

src/src/vue/useBaseQuery.ts is part of this repository and is embedded here.
The Vue runtime and the query-core observer are collaborators: reactivity is
modelled as explicit state, the observer as a record with a subscriber list,
and the unmount hook as the function the setup registers for disposal. -/

/-- The query client as useBaseQuery uses it: only its option-defaulting
function is relevant. -/
structure QueryClientModel (O : Type) where
  defaultQueryObserverOptions : O → O

/-- The query-core observer as useBaseQuery uses it: current options, the
current result, and the registered subscription ids. -/
structure ObserverModel (O R : Type) where
  options : O
  currentResult : R
  subscribers : List Nat
  nextSubId : Nat

/-- observer.subscribe: registers a subscription and returns its id, through
which the returned unsubscribe closure removes it. -/
def ObserverModel.subscribe {O R : Type} (o : ObserverModel O R) :
    Nat × ObserverModel O R :=
  (o.nextSubId,
    { o with subscribers := o.subscribers ++ [o.nextSubId]
             nextSubId := o.nextSubId + 1 })

/-- The unsubscribe closure returned by observer.subscribe. -/
def ObserverModel.unsubscribe {O R : Type} (o : ObserverModel O R)
    (id : Nat) : ObserverModel O R :=
  { o with subscribers := o.subscribers.filter (fun s => s != id) }

/-- observer.setOptions. -/
def ObserverModel.setOptions {O R : Type} (o : ObserverModel O R)
    (opts : O) : ObserverModel O R :=
  { o with options := opts }

/-- The value of a useBaseQuery call site: the observer it created, the
reactive state mirroring the observer's result, the id of its subscription,
the hook registered with onUnmounted, and the options value the suspense
closure passes to observer.fetchOptimistic. -/
structure UseBaseQuerySetup (O R : Type) where
  observer : ObserverModel O R
  state : R
  subId : Nat
  unmountHook : ObserverModel O R → ObserverModel O R
  suspenseOptions : O

/-- Embedding of useBaseQuery (src/src/vue/useBaseQuery.ts lines 55 to 82):
options are defaulted once through the client, an observer is constructed
with them, reactive state starts from the observer's current result, a
subscription is registered whose callback mirrors each result onto the
state, onUnmounted receives the unsubscribe closure, and the suspense
closure captures the let-bound defaultedOptions. -/
def useBaseQuery {O R : Type} (client : QueryClientModel O) (options : O)
    (initialResult : R) : UseBaseQuerySetup O R :=
  let defaultedOptions := client.defaultQueryObserverOptions options
  let observer : ObserverModel O R :=
    { options := defaultedOptions, currentResult := initialResult,
      subscribers := [], nextSubId := 0 }
  let sub := observer.subscribe
  { observer := sub.2
    state := sub.2.currentResult
    subId := sub.1
    unmountHook := fun obs => obs.unsubscribe sub.1
    suspenseOptions := defaultedOptions }

/-- Delivery of a new observer result to the call site: the subscriber
callback runs updateState on the reactive state only while the subscription
is registered; the observer's own current result always advances. -/
def notifySetup {O R : Type} (s : UseBaseQuerySetup O R) (result : R) :
    UseBaseQuerySetup O R :=
  if s.subId ∈ s.observer.subscribers then
    { s with state := result
             observer := { s.observer with currentResult := result } }
  else
    { s with observer := { s.observer with currentResult := result } }

/-- Component disposal: the Vue runtime runs the registered unmount hook. -/
def unmountSetup {O R : Type} (s : UseBaseQuerySetup O R) :
    UseBaseQuerySetup O R :=
  { s with observer := s.unmountHook s.observer }

/-- Embedding of the watchEffect in useBaseQuery: when the reactive options
change, the effect re-runs observer.setOptions with freshly defaulted
options; nothing else in the setup is touched. -/
def applyOptionsWatcher {O R : Type} (client : QueryClientModel O)
    (s : UseBaseQuerySetup O R) (newOptions : O) : UseBaseQuerySetup O R :=
  { s with observer :=
      s.observer.setOptions (client.defaultQueryObserverOptions newOptions) }

/-- C9: the unmount hook of every useBaseQuery call site is exactly the
unsubscribe closure of the subscription it created; before unmount the
subscriber callback mirrors each result onto the reactive state, and after
unmount the callback never mutates the reactive state again. -/
theorem useBaseQuery_teardown {O R : Type} (client : QueryClientModel O)
    (options : O) (initialResult : R) :
    (∀ obs, (useBaseQuery client options initialResult).unmountHook obs =
      obs.unsubscribe (useBaseQuery client options initialResult).subId) ∧
    (∀ result : R,
      (notifySetup (useBaseQuery client options initialResult) result).state
        = result) ∧
    (∀ result : R,
      (notifySetup (unmountSetup (useBaseQuery client options initialResult))
          result).state =
        (unmountSetup (useBaseQuery client options initialResult)).state) := by
  refine ⟨fun obs => rfl, fun result => ?_, fun result => ?_⟩
  · simp [useBaseQuery, notifySetup, ObserverModel.subscribe]
  · simp [useBaseQuery, notifySetup, unmountSetup, ObserverModel.subscribe,
      ObserverModel.unsubscribe]

/-- C10: the suspense closure always passes the options defaulted during
setup; a later option change applied through the reactive watcher updates
the observer's options but not the options suspense passes to
fetchOptimistic. -/
theorem suspense_uses_setup_options {O R : Type}
    (client : QueryClientModel O) (options newOptions : O)
    (initialResult : R) :
    ((applyOptionsWatcher client (useBaseQuery client options initialResult)
        newOptions).suspenseOptions =
      client.defaultQueryObserverOptions options) ∧
    ((applyOptionsWatcher client (useBaseQuery client options initialResult)
        newOptions).observer.options =
      client.defaultQueryObserverOptions newOptions) :=
  ⟨rfl, rfl⟩

end VueQuery
